import Mathlib

/-!
Verification development for the Two-Flags pawn-chess engine.

The definitions below are a shallow embedding of the Python sources
`twoflags/game.py`, `twoflags/notation.py` and `twoflags/agents/ab_agent.py`.
Squares are integers (board squares lie in `[0, 64)`, indexed rank-major);
occupancy is a pair of `Finset Int`; Python's `>> 3` on ints is floor
division (`Int.fdiv`) and `& 7` is the nonnegative remainder (`Int.emod`).
Python sets are iterated through `sorted(...)`, embedded via `finset_asc`.
A Python dynamic attribute (`last_move`, attached by `apply_move_fixed` via
`setattr`) is embedded as an `Option` field that the dataclass constructors
leave at `none`; the Python dataclass `__eq__` compares only the declared
fields, embedded as `pos_eq`.
-/

namespace TwoFlags

/-- The two sides, `"W"` and `"B"` in the Python source. -/
inductive Color where
  | W : Color
  | B : Color
deriving DecidableEq, Repr

/-- `game.Move`: frozen dataclass with structural equality. -/
structure Move where
  src : Int
  dst : Int
  is_ep : Bool := false
  is_double : Bool := false
deriving DecidableEq, Repr

/-- `game.Position`.  `last_move` embeds the dynamic attribute that
`ab_agent.apply_move_fixed` attaches with `setattr`; the dataclass
constructors in `game.py` never set it. -/
structure Position where
  white : Finset Int
  black : Finset Int
  turn : Color := Color.W
  ep_target : Option Int := none
  last_move : Option Move := none
deriving DecidableEq

/-- Python dataclass equality on `Position`: compares the declared fields
only (a dynamically attached `last_move` is invisible to `__eq__`). -/
def pos_eq (p q : Position) : Prop :=
  p.white = q.white ∧ p.black = q.black ∧ p.turn = q.turn ∧
    p.ep_target = q.ep_target

instance (p q : Position) : Decidable (pos_eq p q) := by
  unfold pos_eq; infer_instance

/-- `game.file_of`: `sq & 7` (Python `&` with a positive mask is the
nonnegative remainder). -/
def file_of (sq : Int) : Int := sq.emod 8

/-- `game.rank_of`: `(sq >> 3) + 1` (Python `>>` is floor division). -/
def rank_of (sq : Int) : Int := sq.fdiv 8 + 1

/-- `game.sq_index`. -/
def sq_index (file_idx rank : Int) : Int := (rank - 1) * 8 + file_idx

/-- `Position.initial`: white pawns on rank 2, black pawns on rank 7. -/
def initial_position : Position :=
  { white := (Finset.range 8).image (fun f => sq_index ((f : Nat) : Int) 2)
    black := (Finset.range 8).image (fun f => sq_index ((f : Nat) : Int) 7)
    turn := Color.W
    ep_target := none }

/-- Python's `sorted(...)` on a set of squares: the ascending enumeration
of a `Finset Int`, computed by structural insertion sort on an underlying
list (well-defined because sorted permutations coincide; unlike
`Finset.sort`'s `mergeSort`, this reduces inside the kernel, which the
concrete witnesses below rely on). -/
def finset_asc (s : Finset Int) : List Int :=
  Quot.liftOn s.val (fun l => l.insertionSort (· ≤ ·))
    (fun l₁ l₂ h =>
      List.eq_of_perm_of_sorted
        ((List.perm_insertionSort _ l₁).trans
          (h.trans (List.perm_insertionSort _ l₂).symm))
        (List.sorted_insertionSort _ l₁) (List.sorted_insertionSort _ l₂))

/-- Forward step for the side to move (`8` for white, `-8` for black). -/
def fwd_of (c : Color) : Int := if c = Color.W then 8 else -8

/-- Starting rank for the side to move. -/
def start_rank_of (c : Color) : Int := if c = Color.W then 2 else 7

/-- Capture deltas, left then right from the mover's point of view
(`(7, 9)` for white, `(-9, -7)` for black); the en-passant deltas in the
source are the same pair. -/
def cap_deltas_of (c : Color) : List Int :=
  if c = Color.W then [7, 9] else [-9, -7]

/-- The moves `generate_moves` yields for one pawn at `src`: forward-one,
forward-two from the start rank, the two diagonal captures, and the two
en-passant candidates, in the source's order. -/
def pawn_moves (epT : Option Int) (occ opp : Finset Int)
    (fwd startR : Int) (deltas : List Int) (src : Int) : List Move :=
  let f := file_of src
  let fwd1 :=
    let dst1 := src + fwd
    if 0 ≤ dst1 ∧ dst1 < 64 ∧ dst1 ∉ occ then
      Move.mk src dst1 false false ::
        (if rank_of src = startR ∧ 0 ≤ src + 2 * fwd ∧ src + 2 * fwd < 64 ∧
            src + fwd ∉ occ ∧ src + 2 * fwd ∉ occ then
          [Move.mk src (src + 2 * fwd) false true]
        else [])
    else []
  let caps := deltas.flatMap (fun d =>
    let dst := src + d
    if 0 ≤ dst ∧ dst < 64 ∧ |file_of dst - f| = 1 ∧ dst ∈ opp then
      [Move.mk src dst false false]
    else [])
  let eps :=
    match epT with
    | none => []
    | some ep => deltas.flatMap (fun d =>
        let dst := src + d
        if dst = ep ∧ 0 ≤ dst ∧ dst < 64 ∧ |file_of dst - f| = 1 ∧
            (dst - fwd) ∈ opp ∧ dst ∉ occ then
          [Move.mk src dst true false]
        else [])
  fwd1 ++ caps ++ eps

/-- `game.generate_moves`, with the source's deterministic order (pawns in
ascending square order via `sorted(pawns)`). -/
def generate_moves (pos : Position) : List Move :=
  let occ := pos.white ∪ pos.black
  let pawns := if pos.turn = Color.W then pos.white else pos.black
  let opp := if pos.turn = Color.W then pos.black else pos.white
  (finset_asc pawns).flatMap
    (pawn_moves pos.ep_target occ opp (fwd_of pos.turn)
      (start_rank_of pos.turn) (cap_deltas_of pos.turn))

/-- `game.apply_move`.  Clears `ep_target`, moves the pawn, removes a
normally captured pawn, deliberately does NOT remove the passed-over pawn
of an en-passant move (ChessNet compatibility), sets `ep_target` after a
double step, and flips the turn.  (Python raises `KeyError` when `mv.src`
is not a pawn of the mover; legal moves always satisfy that, and `erase`
embeds the successful path.)  The clone copies only declared fields, so the
result's `last_move` is `none`. -/
def apply_move (pos : Position) (mv : Move) : Position :=
  let fwd := fwd_of pos.turn
  let newEp : Option Int := if mv.is_double then some (mv.src + fwd) else none
  match pos.turn with
  | Color.W =>
      { white := insert mv.dst (pos.white.erase mv.src)
        black := if mv.dst ∈ pos.black then pos.black.erase mv.dst else pos.black
        turn := Color.B
        ep_target := newEp
        last_move := none }
  | Color.B =>
      { white := if mv.dst ∈ pos.white then pos.white.erase mv.dst else pos.white
        black := insert mv.dst (pos.black.erase mv.src)
        turn := Color.W
        ep_target := newEp
        last_move := none }

/-- `game.winner`: target back rank, then wipeout (black checked first),
then no-legal-moves (side to move loses), else no winner. -/
def winner (pos : Position) : Option Color :=
  if ∃ sq ∈ pos.white, sq.fdiv 8 = 7 then some Color.W
  else if ∃ sq ∈ pos.black, sq.fdiv 8 = 0 then some Color.B
  else if pos.black = ∅ then some Color.W
  else if pos.white = ∅ then some Color.B
  else if generate_moves pos = [] then
    some (if pos.turn = Color.W then Color.B else Color.W)
  else none

/-- Python `str.strip` whitespace test (space, tab, LF, CR, vertical tab,
form feed). -/
def is_py_space (c : Char) : Bool :=
  c.toNat = 32 ∨ c.toNat = 9 ∨ c.toNat = 10 ∨ c.toNat = 13 ∨
    c.toNat = 11 ∨ c.toNat = 12

/-- Python `str.strip`: drop whitespace from both ends.  Strings are
embedded as `List Char`. -/
def py_strip (s : List Char) : List Char :=
  ((s.dropWhile is_py_space).reverse.dropWhile is_py_space).reverse

/-- The digit value of a rank character `'1'..'8'`. -/
def digit_val (c : Char) : Int := (c.toNat : Int) - ('0'.toNat : Int)

/-- `game.FILES = "abcdefgh"`. -/
def files_list : List Char := ['a', 'b', 'c', 'd', 'e', 'f', 'g', 'h']

/-- `game.fr_to_square`: strip, demand exactly two characters, look the
file character up in `FILES` (Python `find` returning `-1` is the error
branch), check the rank character lies in `'1'..'8'`. -/
def fr_to_square (fr : List Char) : Except String Int :=
  match py_strip fr with
  | [c0, c1] =>
      match files_list.findIdx? (· = c0) with
      | none => Except.error "Bad file"
      | some f =>
          if c1 < '1' ∨ '8' < c1 then Except.error "Bad rank"
          else Except.ok (sq_index (f : Int) (digit_val c1))
  | _ => Except.error "Bad square"

/-- Loop body of `Position.from_setup_tokens`: tokens whose stripped length
is under 3 are skipped (`continue`); otherwise the square text is parsed
first and then the side letter must be exactly `'W'` or `'B'`. -/
def from_setup_go (turn : Color) :
    List (List Char) → Finset Int → Finset Int → Except String Position
  | [], w, b =>
      Except.ok { white := w, black := b, turn := turn, ep_target := none }
  | tok :: ts, w, b =>
      match py_strip tok with
      | [] => from_setup_go turn ts w b
      | side :: rest =>
          if rest.length < 2 then from_setup_go turn ts w b
          else
            match fr_to_square rest with
            | Except.error e => Except.error e
            | Except.ok sq =>
                if side = 'W' then from_setup_go turn ts (insert sq w) b
                else if side = 'B' then from_setup_go turn ts w (insert sq b)
                else Except.error "Bad setup token"

/-- `Position.from_setup_tokens`. -/
def from_setup_tokens (tokens : List (List Char)) (turn : Color) :
    Except String Position :=
  from_setup_go turn tokens ∅ ∅

/-- A file character `a..h` (after lowercasing). -/
def is_file_char (c : Char) : Bool := 'a' ≤ c ∧ c ≤ 'h'

/-- A rank character `1..8`. -/
def is_rank_char (c : Char) : Bool := '1' ≤ c ∧ c ≤ '8'

/-- `notation.parse_square`: strip and lowercase, demand the shape
`[a-h][1-8]` or `[1-8][a-h]`, then orient by whether the first character is
alphabetic. -/
def parse_square (token : List Char) : Except String Int :=
  match (py_strip token).map Char.toLower with
  | [c0, c1] =>
      if (is_file_char c0 ∧ is_rank_char c1) ∨
          (is_rank_char c0 ∧ is_file_char c1) then
        let fc := if c0.isAlpha then c0 else c1
        let rc := if c0.isAlpha then c1 else c0
        Except.ok (sq_index ((fc.toNat : Int) - ('a'.toNat : Int)) (digit_val rc))
      else Except.error "Bad square token"
  | _ => Except.error "Bad square token"

/-- Loop body of `notation.parse_setup`: every token must strip to exactly
3 characters; the side letter is uppercased before comparison (so lowercase
colors are accepted); the square text goes through `parse_square`. -/
def parse_setup_go :
    List (List Char) → Finset Int → Finset Int → Except String Position
  | [], w, b =>
      Except.ok { white := w, black := b, turn := Color.W, ep_target := none }
  | tok :: ts, w, b =>
      let t := py_strip tok
      if t.length ≠ 3 then Except.error "Bad setup token"
      else
        match t with
        | [] => Except.error "Bad setup token"
        | c :: rest =>
            let col := c.toUpper
            match parse_square (rest.take 2) with
            | Except.error e => Except.error e
            | Except.ok sq =>
                if col = 'W' then parse_setup_go ts (insert sq w) b
                else if col = 'B' then parse_setup_go ts w (insert sq b)
                else Except.error "Bad color in setup token"

/-- `notation.parse_setup`: the first token must lowercase to `"setup"`;
the rest are position tokens. -/
def parse_setup (tokens : List (List Char)) : Except String Position :=
  match tokens with
  | [] => Except.error "setup must start with Setup"
  | t0 :: rest =>
      if t0.map Char.toLower = ['s', 'e', 't', 'u', 'p'] then
        parse_setup_go rest ∅ ∅
      else Except.error "setup must start with Setup"

/-- TT bound kinds (`EXACT = 0`, `LOWER = 1`, `UPPER = 2` in the source). -/
inductive Flag where
  | EXACT : Flag
  | LOWER : Flag
  | UPPER : Flag
deriving DecidableEq, Repr

/-- `ab_agent.TTEntry`. -/
structure TTEntry where
  depth : Nat
  value : Int
  flag : Flag
  best_move : Option Move
deriving DecidableEq, Repr

/-- The global dict `TT`, embedded as an association list with dict-update
semantics. -/
abbrev TTMap := List (Nat × TTEntry)

/-- `TT.get(key)`. -/
def tt_get (tt : TTMap) (k : Nat) : Option TTEntry :=
  match tt.find? (fun e => e.1 == k) with
  | some e => some e.2
  | none => none

/-- `TT[key] = e`: replace the entry for an existing key, else append. -/
def tt_set (tt : TTMap) (k : Nat) (e : TTEntry) : TTMap :=
  if (tt_get tt k).isSome then
    tt.map (fun p => if p.1 == k then (k, e) else p)
  else tt ++ [(k, e)]

/-- `ab_agent.TT_MAX_SIZE`. -/
def tt_max_size : Nat := 200000

/-- `ab_agent._tt_maybe_evict`: drop the whole table when it is over the
size cap. -/
def tt_maybe_evict (tt : TTMap) : TTMap :=
  if tt.length > tt_max_size then [] else tt

/-- `ab_agent._tt_store`: classify `value` against the original window
(`value <= alpha0` → upper, `value >= beta0` → lower, else exact) and write
the entry only when the key is fresh or the new depth is ≥ the stored
depth.  (The `TT_STORES` diagnostic counter is omitted.) -/
def tt_store (k : Nat) (depth : Nat) (value : Int) (alpha0 beta0 : Int)
    (bm : Option Move) (tt : TTMap) : TTMap :=
  let flag :=
    if value ≤ alpha0 then Flag.UPPER
    else if value ≥ beta0 then Flag.LOWER
    else Flag.EXACT
  match tt_get tt k with
  | none => tt_maybe_evict (tt_set tt k ⟨depth, value, flag, bm⟩)
  | some old =>
      if old.depth ≤ depth then tt_maybe_evict (tt_set tt k ⟨depth, value, flag, bm⟩)
      else tt

/-- Result tuple of `ab_agent._tt_probe`:
`(hit, alpha, beta, exact_val)`. -/
structure Probe where
  used : Bool
  alpha : Int
  beta : Int
  value : Option Int
deriving DecidableEq, Repr

/-- `ab_agent._tt_probe`.  (The `TT_HITS` diagnostic counter is
omitted.) -/
def tt_probe (tt : TTMap) (k : Nat) (depth : Nat) (a b : Int) : Probe :=
  match tt_get tt k with
  | none => ⟨false, a, b, none⟩
  | some e =>
      if e.depth < depth then ⟨false, a, b, none⟩
      else
        match e.flag with
        | Flag.EXACT => ⟨true, a, b, some e.value⟩
        | Flag.LOWER =>
            let a' := max a e.value
            if a' ≥ b then ⟨true, a', b, some e.value⟩
            else ⟨true, a', b, none⟩
        | Flag.UPPER =>
            let b' := min b e.value
            if a ≥ b' then ⟨true, a, b', some e.value⟩
            else ⟨true, a, b', none⟩

/-- The process-wide random zobrist material: `Z_PIECE[0][sq]`,
`Z_PIECE[1][sq]`, `Z_TURN`, and the blake2b-based
`_stable_u64_from_obj` digests of the three tuple shapes
`("lm", src, dst, is_ep)`, `("ep", e)` and `("extra", e)`.  The Python
values come from a seeded Mersenne Twister and a cryptographic hash, which
the embedding abstracts as an arbitrary table of constants. -/
structure ZTab where
  zw : Int → Nat
  zb : Int → Nat
  zturn : Nat
  h_lm : Int → Int → Bool → Nat
  h_ep : Int → Nat
  h_extra : Int → Nat

/-- `ab_agent._extract_ep_like_state`: of the probed attribute names a
`Position` can carry, `ep_target` is found first, then the dynamically
attached `last_move`; `None`-valued attributes are passed over. -/
def extract_ep_like_state (pos : Position) : Option (Int ⊕ Move) :=
  match pos.ep_target with
  | some e => some (Sum.inl e)
  | none =>
      match pos.last_move with
      | some m => some (Sum.inr m)
      | none => none

/-- `ab_agent.zobrist_key`: XOR the per-square constants of each occupied
square, the turn constant when white is to move, then fold in the probed
extra state: a `Move` hashes through the `("lm", …)` digest, an int in
`[0, 64)` through the `("ep", …)` digest, anything else through the
`("extra", …)` digest. -/
def zobrist_key (Z : ZTab) (pos : Position) : Nat :=
  let k := (finset_asc pos.white).foldl (fun k sq => k ^^^ Z.zw sq) 0
  let k := (finset_asc pos.black).foldl (fun k sq => k ^^^ Z.zb sq) k
  let k := if pos.turn = Color.W then k ^^^ Z.zturn else k
  match extract_ep_like_state pos with
  | some (Sum.inr m) => k ^^^ Z.h_lm m.src m.dst m.is_ep
  | some (Sum.inl e) =>
      if 0 ≤ e ∧ e < 64 then k ^^^ Z.h_ep e else k ^^^ Z.h_extra e
  | none => k

/-- Modelled from the spec's wording of the fingerprint (for comparison
with `zobrist_key`): XOR the per-square constants and the turn constant,
then a fixed constant keyed by the current `ep_target` square if present,
nothing otherwise. -/
def zobrist_key_claimed (Z : ZTab) (pos : Position) : Nat :=
  let k := (finset_asc pos.white).foldl (fun k sq => k ^^^ Z.zw sq) 0
  let k := (finset_asc pos.black).foldl (fun k sq => k ^^^ Z.zb sq) k
  let k := if pos.turn = Color.W then k ^^^ Z.zturn else k
  match pos.ep_target with
  | some e => k ^^^ Z.h_ep e
  | none => k

/-- `ab_agent.apply_move_fixed`: apply the game's `apply_move`, then for an
en-passant move additionally `discard` the passed-over pawn of the
opponent, and attach the move as the `last_move` attribute. -/
def apply_move_fixed (pos : Position) (mv : Move) : Position :=
  let mover := pos.turn
  let p := apply_move pos mv
  let p2 :=
    if mv.is_ep then
      match mover with
      | Color.W => { p with black := p.black.erase (mv.dst - 8) }
      | Color.B => { p with white := p.white.erase (mv.dst + 8) }
    else p
  { p2 with last_move := some mv }

/-- `ab_agent.evaluate`: material difference times 100 plus 3 times the
progress difference, where a white pawn contributes its rank
`(sq >> 3) + 1` and a black pawn contributes `9 - rank`. -/
def evaluate (pos : Position) : Int :=
  100 * ((pos.white.card : Int) - (pos.black.card : Int)) +
    3 * ((pos.white.sum fun sq => sq.fdiv 8 + 1) -
         (pos.black.sum fun sq => 9 - (sq.fdiv 8 + 1)))

/-- Modelled from the spec's wording of the evaluator (for comparison with
`evaluate`): progress sums, per pawn, the rank distance the pawn has
advanced from its starting rank toward its promotion rank (a white pawn on
rank `r` has advanced `r - 2`, a black pawn `7 - r`). -/
def evaluate_claimed (pos : Position) : Int :=
  100 * ((pos.white.card : Int) - (pos.black.card : Int)) +
    3 * ((pos.white.sum fun sq => (sq.fdiv 8 + 1) - 2) -
         (pos.black.sum fun sq => 7 - (sq.fdiv 8 + 1)))

/-- `ab_agent._is_capture`. -/
def is_capture (pos : Position) (mv : Move) : Bool :=
  let opp := if pos.turn = Color.W then pos.black else pos.white
  mv.is_ep || decide (mv.dst ∈ opp)

/-- The move-ordering step shared by `_search_depth` and `_alphabeta`:
stable-sort captures first (Python's stable `sort` by a boolean key,
descending, equals partition-and-append), then move a remembered TT best
move, when it is in the list, to the front. -/
def order_moves (pos : Position) (tt : TTMap) (key : Nat)
    (moves : List Move) : List Move :=
  let parts := moves.partition (fun m => is_capture pos m)
  let ms := parts.1 ++ parts.2
  match tt_get tt key with
  | some e =>
      match e.best_move with
      | some m => if m ∈ ms then m :: ms.erase m else ms
      | none => ms
  | none => ms

/-- Terminal sentinel `10 ** 12`. -/
def win_score : Int := 10 ^ 12

/-- Alpha/beta initialisation `10 ** 18`. -/
def big_score : Int := 10 ^ 18

/-- Search state: the global `TT`, the `NODES` counter, and the monotone
deadline abstracted as the number of `time.perf_counter() >= deadline`
checks left before the deadline passes (each check consumes one tick; once
the deadline has passed it stays passed). -/
structure SState where
  tt : TTMap
  nodes : Nat
  clock : Nat

/-- One deadline check: true exactly when the clock has run out. -/
def tick (s : SState) : Bool × SState :=
  (s.clock == 0, { s with clock := s.clock - 1 })

/-- The shared move loop of `_search_depth` and `_alphabeta`: per
candidate move, check the deadline (break when past), recurse on the child
position built by `apply_move_fixed`, update the best value/move and the
mover's bound, and break on `beta <= alpha`. -/
def ab_go (recurse : Position → Int → Int → SState → Int × SState)
    (pos : Position) (maximizing : Bool) :
    List Move → Int → Int → Int → Option Move → SState →
      Int × Option Move × SState
  | [], _, _, v, bm, s => (v, bm, s)
  | mv :: rest, a, b, v, bm, s =>
      let t := tick s
      if t.1 then (v, bm, t.2)
      else
        let rc := recurse (apply_move_fixed pos mv) a b t.2
        let child := rc.1
        let s2 := rc.2
        if maximizing then
          let v' := if v < child then child else v
          let bm' := if v < child then some mv else bm
          let a' := max a v'
          if b ≤ a' then (v', bm', s2)
          else ab_go recurse pos maximizing rest a' b v' bm' s2
        else
          let v' := if child < v then child else v
          let bm' := if child < v then some mv else bm
          let b' := min b v'
          if b' ≤ a then (v', bm', s2)
          else ab_go recurse pos maximizing rest a b' v' bm' s2

/-- `ab_agent._alphabeta`: bump `NODES`; past-deadline nodes return the
static evaluation; terminal nodes return the signed sentinel; depth 0
returns the static evaluation; otherwise probe the TT (an exact value
returns immediately), order the moves, run the move loop with the
tightened window, and store the result against the original window. -/
def alphabeta (Z : ZTab) (depth : Nat) (pos : Position) (a b : Int)
    (s : SState) : Int × SState :=
  let s1 := { s with nodes := s.nodes + 1 }
  let t := tick s1
  let s2 := t.2
  if t.1 then (evaluate pos, s2)
  else
    match winner pos with
    | some w => (if w = Color.W then win_score else -win_score, s2)
    | none =>
        if _hd : depth = 0 then (evaluate pos, s2)
        else
          let key := zobrist_key Z pos
          let p := tt_probe s2.tt key depth a b
          match p.value with
          | some v => (v, s2)
          | none =>
              let maximizing := decide (pos.turn = Color.W)
              let moves := generate_moves pos
              if moves = [] then (evaluate pos, s2)
              else
                let ordered := order_moves pos s2.tt key moves
                let v0 : Int := if maximizing then -big_score else big_score
                let r := ab_go (fun q a' b' st => alphabeta Z (depth - 1) q a' b' st)
                  pos maximizing ordered p.alpha p.beta v0 none s2
                let s3 := r.2.2
                let s4 := { s3 with tt := tt_store key depth r.1 a b r.2.1 s3.tt }
                (r.1, s4)
termination_by depth
decreasing_by omega

/-- `ab_agent._search_depth`: root search at a fixed depth over the full
window, returning the best move, its value, and the updated state. -/
def search_depth (Z : ZTab) (pos : Position) (depth : Nat) (s : SState) :
    Option Move × Int × SState :=
  let maximizing := decide (pos.turn = Color.W)
  let moves := generate_moves pos
  if moves = [] then (none, evaluate pos, s)
  else
    let key := zobrist_key Z pos
    let ordered := order_moves pos s.tt key moves
    let v0 : Int := if maximizing then -big_score else big_score
    let r := ab_go (fun q a' b' st => alphabeta Z (depth - 1) q a' b' st)
      pos maximizing ordered (-big_score) big_score v0 none s
    let s3 := r.2.2
    let s4 := { s3 with tt := tt_store key depth r.1 (-big_score) big_score r.2.1 s3.tt }
    (r.2.1, r.1, s4)

/-- The iterative-deepening loop of `choose_move_iterdeep`: `remaining`
counts the depths left up to `max_depth`; before each depth the deadline
is checked, and a depth that produced a move replaces the best so far. -/
def iterdeep_go (Z : ZTab) (pos : Position) :
    Nat → Nat → Option Move → SState → Option Move × SState
  | 0, _, best, s => (best, s)
  | r + 1, depth, best, s =>
      let t := tick s
      if t.1 then (best, t.2)
      else
        let sd := search_depth Z pos depth t.2
        let best' := match sd.1 with | some m => some m | none => best
        iterdeep_go Z pos r (depth + 1) best' sd.2.2

/-- `ab_agent.choose_move_iterdeep`: reset `NODES`, deepen from depth 1 up
to `max_depth` under the deadline; if no depth produced a move, fall back
to the first legal move, and raise `RuntimeError("No legal moves.")` when
there is none.  The time budget and clock are abstracted into the
`clock` tick count of the deadline oracle. -/
def choose_move_iterdeep (Z : ZTab) (pos : Position) (max_depth : Nat)
    (tt0 : TTMap) (clock : Nat) : Except String Move :=
  let s0 : SState := { tt := tt0, nodes := 0, clock := clock }
  let best := (iterdeep_go Z pos max_depth 1 none s0).1
  match best with
  | some m => Except.ok m
  | none =>
      match generate_moves pos with
      | [] => Except.error "No legal moves."
      | m :: _ => Except.ok m

/-- The occupancy invariant of the data model: the two occupancy sets are
disjoint and every square lies in `[0, 64)`. -/
def pos_ok (pos : Position) : Prop :=
  Disjoint pos.white pos.black ∧
    (∀ sq ∈ pos.white, 0 ≤ sq ∧ sq < 64) ∧
    (∀ sq ∈ pos.black, 0 ≤ sq ∧ sq < 64)

instance (pos : Position) : Decidable (pos_ok pos) := by
  unfold pos_ok; infer_instance

/-- Positions reachable from the initial position by applying generated
moves with `apply_move`. -/
inductive Reachable : Position → Prop where
  | init : Reachable initial_position
  | step {p : Position} {mv : Move} :
      Reachable p → mv ∈ generate_moves p → Reachable (apply_move p mv)

/-- Modelled from the spec's wording of the TT bound classification (for
comparison with `tt_store`): value strictly below the original alpha is an
upper bound, value at or above the original beta is a lower bound, every
other value is exact. -/
def flag_claimed (value alpha0 beta0 : Int) : Flag :=
  if value < alpha0 then Flag.UPPER
  else if value ≥ beta0 then Flag.LOWER
  else Flag.EXACT

/-- A concrete zobrist table for witnesses and counterexamples: all
constants zero except the last-move digest. -/
def z0 : ZTab :=
  ⟨fun _ => 0, fun _ => 0, 0, fun _ _ _ => 1, fun _ => 0, fun _ => 0⟩

/-- White pawn on a2, black pawn on h7, white to move. -/
def p_wa2_bh7 : Position := { white := {8}, black := {55}, turn := Color.W }

/-- White pawn on a4, black pawn on b4, black to move, en-passant target
a3 (the state right after white played a2a4): the spec's §8 en-passant
scenario. -/
def p_ep_b : Position :=
  { white := {24}, black := {25}, turn := Color.B, ep_target := some 16 }

/-- Black's en-passant capture b4a3 in `p_ep_b`. -/
def m_ep_b : Move := ⟨25, 16, true, false⟩

/-- A position carrying an attached `last_move` attribute, and its twin
without it: equal in all dataclass fields. -/
def p_with_lm : Position :=
  { white := ∅, black := ∅, turn := Color.W, ep_target := none,
    last_move := some ⟨8, 16, false, false⟩ }

/-- Twin of `p_with_lm` with no attached state. -/
def p_no_lm : Position :=
  { white := ∅, black := ∅, turn := Color.W, ep_target := none }

/-- Lone white pawn on a4 (rank 4): evaluation counterexample input. -/
def p_eval_cex : Position := { white := {24}, black := ∅, turn := Color.W }

/-- C4: for every position, `winner` decides in this order: a white pawn
on rank 8 gives white; else a black pawn on rank 1 gives black; else a
side with zero pawns loses to the other (the source checks black's wipeout
first, which also settles the impossible both-empty corner); else the side
to move with zero legal moves loses to the opponent (there is no draw);
otherwise there is no winner. -/
theorem winner_decision (pos : Position) :
    ((∃ sq ∈ pos.white, sq.fdiv 8 = 7) → winner pos = some Color.W) ∧
    (¬(∃ sq ∈ pos.white, sq.fdiv 8 = 7) →
      (∃ sq ∈ pos.black, sq.fdiv 8 = 0) → winner pos = some Color.B) ∧
    (¬(∃ sq ∈ pos.white, sq.fdiv 8 = 7) →
      ¬(∃ sq ∈ pos.black, sq.fdiv 8 = 0) →
      pos.black = ∅ → winner pos = some Color.W) ∧
    (¬(∃ sq ∈ pos.white, sq.fdiv 8 = 7) →
      ¬(∃ sq ∈ pos.black, sq.fdiv 8 = 0) →
      pos.black ≠ ∅ → pos.white = ∅ → winner pos = some Color.B) ∧
    (¬(∃ sq ∈ pos.white, sq.fdiv 8 = 7) →
      ¬(∃ sq ∈ pos.black, sq.fdiv 8 = 0) →
      pos.black ≠ ∅ → pos.white ≠ ∅ → generate_moves pos = [] →
      winner pos = some (if pos.turn = Color.W then Color.B else Color.W)) ∧
    (¬(∃ sq ∈ pos.white, sq.fdiv 8 = 7) →
      ¬(∃ sq ∈ pos.black, sq.fdiv 8 = 0) →
      pos.black ≠ ∅ → pos.white ≠ ∅ → generate_moves pos ≠ [] →
      winner pos = none) := by
  refine ⟨fun h1 => ?_, fun h1 h2 => ?_, fun h1 h2 h3 => ?_,
    fun h1 h2 h3 h4 => ?_, fun h1 h2 h3 h4 h5 => ?_,
    fun h1 h2 h3 h4 h5 => ?_⟩
  · simp [winner, h1]
  · simp [winner, h1, h2]
  · simp [winner, h1, h2, h3]
  · simp [winner, h1, h2, h3, h4]
  · simp [winner, h1, h2, h3, h4, h5]
  · simp [winner, h1, h2, h3, h4, h5]

/-- Witness for `winner_decision`: a white pawn on a8 wins immediately,
even though black (pawn on a2) still has legal moves. -/
theorem winner_decision_witness :
    winner { white := {56}, black := {8}, turn := Color.W } = some Color.W :=
  (winner_decision _).1 ⟨56, by decide, by decide⟩

/-- C9 counterexample: a lone white pawn on a4 (rank 4). `evaluate` scores
it 112 = 100 + 3·4, while the claim's progress reading (rank distance
advanced from the start rank: 4 − 2 = 2) would give 106. -/
theorem evaluate_claim_cex :
    evaluate p_eval_cex = 112 ∧ evaluate_claimed p_eval_cex = 106 := by
  decide

/-- C9 amended: `evaluate` equals the claimed formula shifted by 6 per
pawn of material difference — a white pawn's progress term is its full
rank `(sq >> 3) + 1` and a black pawn's is `9 − rank`, i.e. the
start-rank-based advance plus 2. -/
theorem evaluate_eq_claimed_plus_shift (pos : Position) :
    evaluate pos =
      evaluate_claimed pos +
        6 * ((pos.white.card : Int) - (pos.black.card : Int)) := by
  unfold evaluate evaluate_claimed
  have hw : (pos.white.sum fun sq => (sq.fdiv 8 + 1) - 2)
      = (pos.white.sum fun sq => sq.fdiv 8 + 1) - (pos.white.card : Int) * 2 := by
    rw [Finset.sum_sub_distrib, Finset.sum_const, nsmul_eq_mul]
  have hb : (pos.black.sum fun sq => 7 - (sq.fdiv 8 + 1))
      = (pos.black.sum fun sq => 9 - (sq.fdiv 8 + 1)) - (pos.black.card : Int) * 2 := by
    have h2 : ∀ sq ∈ pos.black,
        (7 : Int) - (sq.fdiv 8 + 1) = (9 - (sq.fdiv 8 + 1)) - 2 := by
      intro sq _; ring
    rw [Finset.sum_congr rfl h2, Finset.sum_sub_distrib, Finset.sum_const,
      nsmul_eq_mul]
  rw [hw, hb]; ring

theorem tt_get_map_replace (tt : TTMap) (k : Nat) (e : TTEntry) :
    tt_get (tt.map fun p => if p.1 == k then (k, e) else p) k =
      if (tt_get tt k).isSome then some e else none := by
  induction tt with
  | nil => rfl
  | cons p ps ih =>
      by_cases h : p.1 = k
      · simp [tt_get, List.find?, h]
      · simp only [tt_get, List.map_cons] at ih ⊢
        have hb : (p.1 == k) = false := by simpa using h
        simp only [hb, if_false, List.find?, Bool.false_eq_true]
        exact ih

theorem tt_get_append_single (tt : TTMap) (k : Nat) (e : TTEntry)
    (h : tt_get tt k = none) : tt_get (tt ++ [(k, e)]) k = some e := by
  induction tt with
  | nil => simp [tt_get, List.find?]
  | cons p ps ih =>
      by_cases hp : p.1 = k
      · simp [tt_get, List.find?, hp] at h
      · simp only [tt_get, List.find?] at h ⊢
        have hb : (p.1 == k) = false := by simpa using hp
        simp only [hb, Bool.false_eq_true, List.cons_append] at h ⊢
        exact ih h

theorem tt_get_tt_set (tt : TTMap) (k : Nat) (e : TTEntry) :
    tt_get (tt_set tt k e) k = some e := by
  unfold tt_set
  by_cases h : (tt_get tt k).isSome
  · simp only [h, if_true, tt_get_map_replace]
  · have hn : tt_get tt k = none := Option.not_isSome_iff_eq_none.mp h
    simp only [h, Bool.false_eq_true, if_false]
    exact tt_get_append_single tt k e hn

theorem tt_set_length (tt : TTMap) (k : Nat) (e : TTEntry) :
    (tt_set tt k e).length ≤ tt.length + 1 := by
  unfold tt_set
  split
  · simp
  · simp

/-- C7 counterexample: storing a value exactly equal to the original alpha
(window `(0, 10)`, value `0`) records an UPPER-bound flag, while the
claim's classification ("below the original alpha → upper; else ... exact")
calls that value exact. -/
theorem tt_store_flag_cex :
    (tt_get (tt_store 5 2 0 0 10 none []) 5).map TTEntry.flag =
      some Flag.UPPER ∧ flag_claimed 0 0 10 = Flag.EXACT := by
  decide

/-- C7 amended: `_tt_store` classifies against the original window with
value AT OR BELOW the original alpha an upper bound (at/above the original
beta a lower bound, else exact), and an entry for the same key is
overwritten exactly when the new depth is ≥ the stored depth (stated for a
table under the size cap, so the coarse whole-table eviction does not
fire). -/
theorem tt_store_spec (tt : TTMap) (k d : Nat) (v a0 b0 : Int)
    (bm : Option Move) (hlen : tt.length < tt_max_size) :
    (tt_get tt k = none →
      tt_get (tt_store k d v a0 b0 bm tt) k =
        some ⟨d, v,
          if v ≤ a0 then Flag.UPPER
          else if v ≥ b0 then Flag.LOWER else Flag.EXACT, bm⟩) ∧
    (∀ old, tt_get tt k = some old → old.depth ≤ d →
      tt_get (tt_store k d v a0 b0 bm tt) k =
        some ⟨d, v,
          if v ≤ a0 then Flag.UPPER
          else if v ≥ b0 then Flag.LOWER else Flag.EXACT, bm⟩) ∧
    (∀ old, tt_get tt k = some old → d < old.depth →
      tt_store k d v a0 b0 bm tt = tt) := by
  have hev : ∀ e : TTEntry, tt_maybe_evict (tt_set tt k e) = tt_set tt k e := by
    intro e
    unfold tt_maybe_evict
    have hl := tt_set_length tt k e
    rw [if_neg]
    omega
  refine ⟨fun h => ?_, fun old h hd => ?_, fun old h hd => ?_⟩
  · simp only [tt_store, h, hev, tt_get_tt_set]
  · simp only [tt_store, h]
    rw [if_pos hd, hev, tt_get_tt_set]
  · simp only [tt_store, h]
    rw [if_neg (by omega)]

/-- Witness for `tt_store_spec`: a fresh store into the empty table of
value 7 against window `(0, 10)` lands as an exact entry. -/
theorem tt_store_spec_witness :
    tt_get (tt_store 5 2 7 0 10 none []) 5 =
      some ⟨2, 7, Flag.EXACT, none⟩ := by
  rw [(tt_store_spec [] 5 2 7 0 10 none (by decide)).1 rfl]
  decide

/-- C8: a TT probe never uses an entry whose stored depth is below the
requested depth (the window and value come back untouched); a deep-enough
exact entry supplies the value directly; a lower-bound entry raises alpha
to `max alpha value`; an upper-bound entry lowers beta to
`min beta value`; and when the tightened window is closed the probe
returns the stored value immediately. -/
theorem tt_probe_spec (tt : TTMap) (k depth : Nat) (a b : Int) :
    (tt_get tt k = none → tt_probe tt k depth a b = ⟨false, a, b, none⟩) ∧
    (∀ e, tt_get tt k = some e → e.depth < depth →
      tt_probe tt k depth a b = ⟨false, a, b, none⟩) ∧
    (∀ e, tt_get tt k = some e → depth ≤ e.depth →
      (e.flag = Flag.EXACT →
        tt_probe tt k depth a b = ⟨true, a, b, some e.value⟩) ∧
      (e.flag = Flag.LOWER →
        tt_probe tt k depth a b =
          if max a e.value ≥ b then ⟨true, max a e.value, b, some e.value⟩
          else ⟨true, max a e.value, b, none⟩) ∧
      (e.flag = Flag.UPPER →
        tt_probe tt k depth a b =
          if a ≥ min b e.value then ⟨true, a, min b e.value, some e.value⟩
          else ⟨true, a, min b e.value, none⟩)) := by
  refine ⟨fun h => ?_, fun e h hlt => ?_, fun e h hle => ?_⟩
  · simp [tt_probe, h]
  · simp [tt_probe, h, hlt]
  · have hnl : ¬ e.depth < depth := by omega
    refine ⟨fun hf => ?_, fun hf => ?_, fun hf => ?_⟩ <;>
      simp [tt_probe, h, hnl, hf]

/-- Witness for `tt_probe_spec`: an exact entry of depth 3 answers a
depth-2 probe directly with its stored value. -/
theorem tt_probe_spec_witness :
    tt_probe [(7, ⟨3, 42, Flag.EXACT, none⟩)] 7 2 0 10 =
      ⟨true, 0, 10, some 42⟩ :=
  ((tt_probe_spec [(7, ⟨3, 42, Flag.EXACT, none⟩)] 7 2 0 10).2.2
    ⟨3, 42, Flag.EXACT, none⟩ (by decide) (by decide)).1 rfl

theorem zobrist_key_eq_claimed (Z : ZTab) (pos : Position)
    (hlm : pos.last_move = none)
    (hep : ∀ e, pos.ep_target = some e → 0 ≤ e ∧ e < 64) :
    zobrist_key Z pos = zobrist_key_claimed Z pos := by
  unfold zobrist_key zobrist_key_claimed extract_ep_like_state
  cases h : pos.ep_target with
  | none => simp [hlm]
  | some e => simp [hep e h]

theorem zobrist_claimed_congr (Z : ZTab) {p q : Position} (h : pos_eq p q) :
    zobrist_key_claimed Z p = zobrist_key_claimed Z q := by
  obtain ⟨hw, hb, ht, he⟩ := h
  unfold zobrist_key_claimed
  rw [hw, hb, ht, he]

/-- C6 counterexample: two positions with identical white set, black set,
turn and `ep_target`, where one carries the `last_move` attribute that
`apply_move_fixed` attaches, hash differently: with `ep_target` absent the
reflective probe finds `last_move` and XORs its digest into the key. -/
theorem zobrist_attached_state_cex :
    pos_eq p_with_lm p_no_lm ∧
      zobrist_key z0 p_with_lm ≠ zobrist_key z0 p_no_lm := by
  decide

/-- C6 amended: for positions carrying no attached `last_move` state and
an in-range (or absent) `ep_target`, the fingerprint is exactly the
claimed XOR (per-square constants, turn constant, ep constant when
present), and consequently two such positions agreeing on the four
dataclass fields hash equal.  A position that does carry `last_move` —
every child the search builds through `apply_move_fixed` — additionally
XORs a digest keyed by that move whenever `ep_target` is absent. -/
theorem zobrist_key_spec (Z : ZTab) (pos : Position)
    (hlm : pos.last_move = none)
    (hep : ∀ e, pos.ep_target = some e → 0 ≤ e ∧ e < 64) :
    zobrist_key Z pos = zobrist_key_claimed Z pos ∧
    (∀ q : Position, pos_eq pos q → q.last_move = none →
      zobrist_key Z q = zobrist_key Z pos) := by
  have h1 := zobrist_key_eq_claimed Z pos hlm hep
  refine ⟨h1, fun q hq hqlm => ?_⟩
  have hqep : ∀ e, q.ep_target = some e → 0 ≤ e ∧ e < 64 := by
    intro e he
    exact hep e (hq.2.2.2 ▸ he)
  calc zobrist_key Z q = zobrist_key_claimed Z q :=
        zobrist_key_eq_claimed Z q hqlm hqep
    _ = zobrist_key_claimed Z pos := (zobrist_claimed_congr Z hq).symm
    _ = zobrist_key Z pos := h1.symm

/-- Witness for `zobrist_key_spec`: the position right after a white
double step (ep target a3, no attached state) hashes as claimed. -/
theorem zobrist_key_spec_witness :
    zobrist_key z0 p_ep_b = zobrist_key_claimed z0 p_ep_b :=
  (zobrist_key_spec z0 p_ep_b rfl
    (fun e he => by injection he with h; subst h; decide)).1

/-- C3: the search's move applicator `apply_move_fixed` agrees with the
game's `apply_move` (under Python dataclass equality, which ignores the
attached `last_move`) on every move whose en-passant flag is false; on
every en-passant-flagged move it additionally erases the passed-over
opponent pawn from the opponent's set; hence the two applicators are not
equivalent. -/
theorem apply_move_fixed_spec :
    (∀ pos mv, mv.is_ep = false →
      pos_eq (apply_move_fixed pos mv) (apply_move pos mv)) ∧
    (∀ pos mv, mv.is_ep = true → pos.turn = Color.W →
      (apply_move_fixed pos mv).black =
        ((apply_move pos mv).black).erase (mv.dst - 8) ∧
      (apply_move_fixed pos mv).white = (apply_move pos mv).white ∧
      (apply_move_fixed pos mv).turn = (apply_move pos mv).turn ∧
      (apply_move_fixed pos mv).ep_target = (apply_move pos mv).ep_target) ∧
    (∀ pos mv, mv.is_ep = true → pos.turn = Color.B →
      (apply_move_fixed pos mv).white =
        ((apply_move pos mv).white).erase (mv.dst + 8) ∧
      (apply_move_fixed pos mv).black = (apply_move pos mv).black ∧
      (apply_move_fixed pos mv).turn = (apply_move pos mv).turn ∧
      (apply_move_fixed pos mv).ep_target = (apply_move pos mv).ep_target) ∧
    ¬ (∀ pos mv, pos_eq (apply_move_fixed pos mv) (apply_move pos mv)) := by
  refine ⟨fun pos mv h => ?_, fun pos mv h ht => ?_, fun pos mv h ht => ?_,
    fun hall => ?_⟩
  · simp [apply_move_fixed, h, pos_eq]
  · simp [apply_move_fixed, h, ht]
  · simp [apply_move_fixed, h, ht]
  · exact absurd (hall p_ep_b m_ep_b) (by decide)

/-- Witness for `apply_move_fixed_spec`: on the quiet move a2a3 the two
applicators agree under dataclass equality. -/
theorem apply_move_fixed_spec_witness :
    pos_eq (apply_move_fixed p_wa2_bh7 ⟨8, 16, false, false⟩)
      (apply_move p_wa2_bh7 ⟨8, 16, false, false⟩) :=
  apply_move_fixed_spec.1 p_wa2_bh7 ⟨8, 16, false, false⟩ rfl

theorem mem_finset_asc (s : Finset Int) (x : Int) :
    x ∈ finset_asc s ↔ x ∈ s := by
  rcases s with ⟨m, hm⟩
  revert hm
  refine Quotient.inductionOn m (fun l hm => ?_)
  show x ∈ l.insertionSort (· ≤ ·) ↔ _
  rw [(List.perm_insertionSort (· ≤ ·) l).mem_iff]
  exact Iff.rfl

theorem mem_ite_nil {α : Type _} (c : Prop) [Decidable c] (l : List α)
    (x : α) : (x ∈ if c then l else []) ↔ c ∧ x ∈ l := by
  split
  case isTrue h => simp [h]
  case isFalse h => simp [h]

theorem mem_pawn_moves {epT : Option Int} {occ opp : Finset Int}
    {fwd startR : Int} {deltas : List Int} {src : Int} {mv : Move}
    (h : mv ∈ pawn_moves epT occ opp fwd startR deltas src) :
    mv.src = src ∧ 0 ≤ mv.dst ∧ mv.dst < 64 ∧
      (mv.is_ep = true →
        epT = some mv.dst ∧ (mv.dst - fwd) ∈ opp ∧ mv.dst ∉ occ) := by
  cases epT with
  | none =>
      simp only [pawn_moves, List.mem_append, mem_ite_nil, List.mem_flatMap,
        List.mem_cons, List.mem_singleton, List.not_mem_nil, or_false] at h
      rcases h with ⟨hc, heq | ⟨hd, heq⟩⟩ | ⟨d, hd, hc, heq⟩ <;> subst heq
      · exact ⟨rfl, hc.1, hc.2.1, by simp⟩
      · exact ⟨rfl, hd.2.1, hd.2.2.1, by simp⟩
      · exact ⟨rfl, hc.1, hc.2.1, by simp⟩
  | some ep =>
      simp only [pawn_moves, List.mem_append, mem_ite_nil, List.mem_flatMap,
        List.mem_cons, List.mem_singleton, List.not_mem_nil, or_false] at h
      rcases h with (⟨hc, heq | ⟨hd, heq⟩⟩ | ⟨d, hd, hc, heq⟩) | ⟨d, hd, hc, heq⟩ <;>
        subst heq
      · exact ⟨rfl, hc.1, hc.2.1, by simp⟩
      · exact ⟨rfl, hd.2.1, hd.2.2.1, by simp⟩
      · exact ⟨rfl, hc.1, hc.2.1, by simp⟩
      · refine ⟨rfl, hc.2.1, hc.2.2.1, fun _ => ?_⟩
        exact ⟨by rw [hc.1], hc.2.2.2.2.1, hc.2.2.2.2.2⟩

theorem mem_generate_moves {pos : Position} {mv : Move}
    (h : mv ∈ generate_moves pos) :
    mv.src ∈ (if pos.turn = Color.W then pos.white else pos.black) ∧
    0 ≤ mv.dst ∧ mv.dst < 64 ∧
    (mv.is_ep = true →
      pos.ep_target = some mv.dst ∧
      (mv.dst - fwd_of pos.turn) ∈
        (if pos.turn = Color.W then pos.black else pos.white) ∧
      mv.dst ∉ pos.white ∪ pos.black) := by
  simp only [generate_moves, List.mem_flatMap] at h
  obtain ⟨src, hsrc, hm⟩ := h
  have hp := mem_pawn_moves hm
  refine ⟨hp.1 ▸ (mem_finset_asc _ _).mp hsrc, hp.2.1, hp.2.2.1, hp.2.2.2⟩

/-- C2: applying a legal en-passant-flagged move with the game's
`apply_move` leaves the passed-over opponent pawn — the square one forward
step behind the destination, from the mover's side — in the opponent's
occupancy set: the pawn is not removed. -/
theorem ep_capture_no_removal (pos : Position) (mv : Move)
    (hm : mv ∈ generate_moves pos) (hep : mv.is_ep = true) :
    (mv.dst - fwd_of pos.turn) ∈
      (if pos.turn = Color.W then (apply_move pos mv).black
       else (apply_move pos mv).white) := by
  obtain ⟨hsrc, hlo, hhi, hrest⟩ := mem_generate_moves hm
  obtain ⟨hept, hcap, hocc⟩ := hrest hep
  unfold apply_move
  cases ht : pos.turn with
  | W =>
      rw [ht] at hcap
      simp only [if_pos rfl] at hcap ⊢
      have hnb : mv.dst ∉ pos.black := fun hc =>
        hocc (Finset.mem_union_right _ hc)
      rw [if_neg hnb]
      exact hcap
  | B =>
      rw [ht] at hcap
      simp only [reduceCtorEq, if_neg, if_false] at hcap ⊢
      have hnw : mv.dst ∉ pos.white := fun hc =>
        hocc (Finset.mem_union_left _ hc)
      rw [if_neg hnw]
      exact hcap

/-- Witness for `ep_capture_no_removal`: in the spec's §8 scenario (white
a4, black b4, black to move, ep target a3) black's en-passant capture
b4a3 is legal and leaves the white a4 pawn (square 24) on the board. -/
theorem ep_capture_no_removal_witness :
    m_ep_b ∈ generate_moves p_ep_b ∧
      (24 : Int) ∈ (apply_move p_ep_b m_ep_b).white := by
  refine ⟨by decide, ?_⟩
  have h := ep_capture_no_removal p_ep_b m_ep_b (by decide) rfl
  simpa [p_ep_b, m_ep_b, fwd_of] using h

/-- C5: a move generated for a position whose occupancy sets are disjoint
and inside `[0, 64)` yields, through `apply_move`, a position whose sets
are again disjoint and inside `[0, 64)`; in particular every position
reachable from the initial position satisfies the invariant. -/
theorem occupancy_invariant :
    (∀ pos mv, pos_ok pos → mv ∈ generate_moves pos →
      pos_ok (apply_move pos mv)) ∧
    (∀ pos, Reachable pos → pos_ok pos) := by
  have step : ∀ pos mv, pos_ok pos → mv ∈ generate_moves pos →
      pos_ok (apply_move pos mv) := by
    intro pos mv hok hm
    obtain ⟨hdisj, hwb, hbb⟩ := hok
    obtain ⟨hsrc, hlo, hhi, _⟩ := mem_generate_moves hm
    unfold apply_move
    cases ht : pos.turn with
    | W =>
        refine ⟨?_, ?_, ?_⟩
        · rw [Finset.disjoint_left]
          intro x hx
          rcases Finset.mem_insert.mp hx with rfl | hx'
          · by_cases hb : mv.dst ∈ pos.black
            · rw [if_pos hb]; exact Finset.not_mem_erase _ _
            · rw [if_neg hb]; exact hb
          · have hxw : x ∈ pos.white := Finset.mem_of_mem_erase hx'
            have hnx : x ∉ pos.black := Finset.disjoint_left.mp hdisj hxw
            by_cases hb : mv.dst ∈ pos.black
            · rw [if_pos hb]; exact fun hc => hnx (Finset.mem_of_mem_erase hc)
            · rw [if_neg hb]; exact hnx
        · intro sq hsq
          rcases Finset.mem_insert.mp hsq with rfl | hs'
          · exact ⟨hlo, hhi⟩
          · exact hwb sq (Finset.mem_of_mem_erase hs')
        · intro sq hsq
          by_cases hb : mv.dst ∈ pos.black
          · rw [if_pos hb] at hsq
            exact hbb sq (Finset.mem_of_mem_erase hsq)
          · rw [if_neg hb] at hsq
            exact hbb sq hsq
    | B =>
        refine ⟨?_, ?_, ?_⟩
        · rw [Finset.disjoint_left]
          intro x hxw hxb
          rcases Finset.mem_insert.mp hxb with heq | hxb'
          · subst heq
            by_cases hb : mv.dst ∈ pos.white
            · rw [if_pos hb] at hxw
              exact Finset.not_mem_erase _ _ hxw
            · rw [if_neg hb] at hxw
              exact hb hxw
          · have hxb2 : x ∈ pos.black := Finset.mem_of_mem_erase hxb'
            have hnx : x ∉ pos.white := fun hc =>
              Finset.disjoint_left.mp hdisj hc hxb2
            by_cases hb : mv.dst ∈ pos.white
            · rw [if_pos hb] at hxw
              exact hnx (Finset.mem_of_mem_erase hxw)
            · rw [if_neg hb] at hxw
              exact hnx hxw
        · intro sq hsq
          by_cases hb : mv.dst ∈ pos.white
          · rw [if_pos hb] at hsq
            exact hwb sq (Finset.mem_of_mem_erase hsq)
          · rw [if_neg hb] at hsq
            exact hwb sq hsq
        · intro sq hsq
          rcases Finset.mem_insert.mp hsq with rfl | hs'
          · exact ⟨hlo, hhi⟩
          · exact hbb sq (Finset.mem_of_mem_erase hs')
  refine ⟨step, fun pos h => ?_⟩
  induction h with
  | init => decide
  | step hr hmv ih => exact step _ _ ih hmv

/-- Witness for `occupancy_invariant`: applying a2a3 in a two-pawn
position keeps the invariant. -/
theorem occupancy_invariant_witness :
    pos_ok (apply_move p_wa2_bh7 ⟨8, 16, false, false⟩) :=
  occupancy_invariant.1 p_wa2_bh7 ⟨8, 16, false, false⟩ (by decide) (by decide)

/-- C10 counterexample: `from_setup_tokens` silently skips the malformed
(stripped length < 3) token `"Wa"` and returns an empty position instead
of failing; and `parse_setup` accepts the lowercase color of `"wa2"`
instead of demanding exactly `W` or `B`. -/
theorem setup_malformed_cex :
    from_setup_tokens [['W', 'a']] Color.W =
      Except.ok { white := ∅, black := ∅, turn := Color.W } ∧
    (parse_setup [['S', 'e', 't', 'u', 'p'], ['w', 'a', '2']]).toOption.map
      (fun p => (p.white, p.black, p.turn)) = some ({8}, ∅, Color.W) := by
  constructor
  · rfl
  · decide

/-- C10 amended: `from_setup_tokens` skips tokens whose stripped length is
under 3; a longer token fails on an invalid square, and on a valid square
fails unless the side letter is exactly `W` or `B`; `parse_setup` rejects
every token whose stripped length is not exactly 3.  A failure is an
`Except.error`, so no partial position escapes. -/
theorem setup_parsing_spec :
    (∀ t ts turn, (py_strip t).length < 3 →
      from_setup_tokens (t :: ts) turn = from_setup_tokens ts turn) ∧
    (∀ t ts turn c rest msg, py_strip t = c :: rest → ¬ rest.length < 2 →
      fr_to_square rest = Except.error msg →
      from_setup_tokens (t :: ts) turn = Except.error msg) ∧
    (∀ t ts turn c rest sq, py_strip t = c :: rest → ¬ rest.length < 2 →
      fr_to_square rest = Except.ok sq → c ≠ 'W' → c ≠ 'B' →
      from_setup_tokens (t :: ts) turn = Except.error "Bad setup token") ∧
    (∀ s0 t ts, s0.map Char.toLower = ['s', 'e', 't', 'u', 'p'] →
      (py_strip t).length ≠ 3 →
      parse_setup (s0 :: t :: ts) = Except.error "Bad setup token") := by
  refine ⟨fun t ts turn h => ?_, fun t ts turn c rest msg hs hl he => ?_,
    fun t ts turn c rest sq hs hl he hw hb => ?_, fun s0 t ts hs hl => ?_⟩
  · show from_setup_go turn (t :: ts) ∅ ∅ = from_setup_go turn ts ∅ ∅
    cases hc : py_strip t with
    | nil => simp [from_setup_go, hc]
    | cons c rest =>
        rw [hc] at h
        have h2 : rest.length < 2 := by simp at h; omega
        simp [from_setup_go, hc, if_pos h2]
  · show from_setup_go turn (t :: ts) ∅ ∅ = Except.error msg
    simp [from_setup_go, hs, if_neg hl, he]
  · show from_setup_go turn (t :: ts) ∅ ∅ = Except.error "Bad setup token"
    simp [from_setup_go, hs, if_neg hl, he, hw, hb]
  · simp [parse_setup, hs, parse_setup_go, hl]

/-- Witness for `setup_parsing_spec`: the short token `"Wa"` is skipped
and parsing continues with the remaining tokens. -/
theorem setup_parsing_spec_witness :
    from_setup_tokens [['W', 'a'], ['B', 'b', '7']] Color.W =
      from_setup_tokens [['B', 'b', '7']] Color.W :=
  setup_parsing_spec.1 ['W', 'a'] [['B', 'b', '7']] Color.W (by decide)

theorem order_moves_subset (pos : Position) (tt : TTMap) (key : Nat)
    (moves : List Move) : ∀ m ∈ order_moves pos tt key moves, m ∈ moves := by
  intro m hm
  have hms : ∀ x : Move,
      x ∈ (moves.partition (fun mv => is_capture pos mv)).1 ++
          (moves.partition (fun mv => is_capture pos mv)).2 → x ∈ moves := by
    intro x hx
    rcases List.mem_append.mp hx with hx | hx
    · rw [List.partition_eq_filter_filter] at hx
      exact List.mem_of_mem_filter hx
    · rw [List.partition_eq_filter_filter] at hx
      exact List.mem_of_mem_filter hx
  unfold order_moves at hm
  cases htt : tt_get tt key with
  | none =>
      rw [htt] at hm
      dsimp only at hm
      exact hms m hm
  | some e =>
      rw [htt] at hm
      dsimp only at hm
      cases hbm : e.best_move with
      | none =>
          rw [hbm] at hm
          exact hms m hm
      | some bm =>
          rw [hbm] at hm
          dsimp only at hm
          split at hm
          case isTrue hin =>
            rcases List.mem_cons.mp hm with rfl | hm2
            · exact hms _ hin
            · exact hms m (List.mem_of_mem_erase hm2)
          case isFalse => exact hms m hm

theorem ab_go_mem (recurse : Position → Int → Int → SState → Int × SState)
    (pos : Position) (maximizing : Bool) :
    ∀ (l L : List Move) (a b v : Int) (bm : Option Move) (s : SState),
      (∀ m ∈ l, m ∈ L) → (∀ m, bm = some m → m ∈ L) →
      ∀ m, (ab_go recurse pos maximizing l a b v bm s).2.1 = some m →
        m ∈ L := by
  intro l
  induction l with
  | nil =>
      intro L a b v bm s _ hbm m hres
      exact hbm m hres
  | cons mv rest ih =>
      intro L a b v bm s hl hbm m hres
      simp only [ab_go] at hres
      split at hres
      · exact hbm m hres
      · split at hres
        · split at hres
          · split at hres
            · exact Option.some.inj hres ▸ hl mv (List.mem_cons_self _ _)
            · exact ih _ _ _ _ _ _ (fun x hx => hl x (List.mem_cons_of_mem _ hx))
                (fun m2 heq =>
                  Option.some.inj heq ▸ hl mv (List.mem_cons_self _ _)) m hres
          · split at hres
            · exact hbm m hres
            · exact ih _ _ _ _ _ _ (fun x hx => hl x (List.mem_cons_of_mem _ hx))
                hbm m hres
        · split at hres
          · split at hres
            · exact Option.some.inj hres ▸ hl mv (List.mem_cons_self _ _)
            · exact ih _ _ _ _ _ _ (fun x hx => hl x (List.mem_cons_of_mem _ hx))
                (fun m2 heq =>
                  Option.some.inj heq ▸ hl mv (List.mem_cons_self _ _)) m hres
          · split at hres
            · exact hbm m hres
            · exact ih _ _ _ _ _ _ (fun x hx => hl x (List.mem_cons_of_mem _ hx))
                hbm m hres

theorem search_depth_mem (Z : ZTab) (pos : Position) (depth : Nat)
    (s : SState) :
    ∀ m, (search_depth Z pos depth s).1 = some m →
      m ∈ generate_moves pos := by
  intro m h
  simp only [search_depth] at h
  split at h
  · exact absurd h (by simp)
  · exact ab_go_mem _ pos _ _ (generate_moves pos) _ _ _ _ _
      (order_moves_subset pos s.tt _ _) (fun _ hc => Option.noConfusion hc) m h

theorem search_depth_none (Z : ZTab) (pos : Position) (depth : Nat)
    (s : SState) (h : generate_moves pos = []) :
    (search_depth Z pos depth s).1 = none := by
  simp [search_depth, h]

theorem iterdeep_go_mem (Z : ZTab) (pos : Position) :
    ∀ (r depth : Nat) (best : Option Move) (s : SState),
      (∀ m, best = some m → m ∈ generate_moves pos) →
      ∀ m, (iterdeep_go Z pos r depth best s).1 = some m →
        m ∈ generate_moves pos := by
  intro r
  induction r with
  | zero =>
      intro depth best s hb m h
      exact hb m h
  | succ n ih =>
      intro depth best s hb m h
      simp only [iterdeep_go] at h
      split at h
      · exact hb m h
      · refine ih _ _ _ ?_ m h
        intro m2 heq
        revert heq
        cases hsd : (search_depth Z pos depth (tick s).2).1 with
        | none =>
            intro heq
            exact hb m2 heq
        | some m3 =>
            intro heq
            exact Option.some.inj heq ▸ search_depth_mem Z pos depth _ m3 hsd

theorem iterdeep_go_none (Z : ZTab) (pos : Position)
    (hg : generate_moves pos = []) :
    ∀ (r depth : Nat) (s : SState),
      (iterdeep_go Z pos r depth none s).1 = none := by
  intro r
  induction r with
  | zero => intro depth s; rfl
  | succ n ih =>
      intro depth s
      simp only [iterdeep_go]
      split
      · rfl
      · rw [search_depth_none Z pos depth _ hg]
        exact ih _ _

/-- C1: whenever the position has at least one legal move,
`choose_move_iterdeep` returns (for every zobrist table, every prior TT
state, every deadline behavior and every depth cap) a move belonging to
`generate_moves` of that position; with zero legal moves it fails
explicitly with the `"No legal moves."` error instead of returning a
move. -/
theorem choose_move_iterdeep_spec (Z : ZTab) (pos : Position)
    (max_depth : Nat) (tt0 : TTMap) (clock : Nat) :
    (generate_moves pos ≠ [] →
      ∃ mv, choose_move_iterdeep Z pos max_depth tt0 clock = Except.ok mv ∧
        mv ∈ generate_moves pos) ∧
    (generate_moves pos = [] →
      choose_move_iterdeep Z pos max_depth tt0 clock =
        Except.error "No legal moves.") := by
  constructor
  · intro hne
    cases hb : (iterdeep_go Z pos max_depth 1 none
        { tt := tt0, nodes := 0, clock := clock }).1 with
    | some m =>
        refine ⟨m, ?_, ?_⟩
        · simp only [choose_move_iterdeep]
          rw [hb]
        · exact iterdeep_go_mem Z pos max_depth 1 none _
            (fun _ hc => Option.noConfusion hc) m hb
    | none =>
        cases hg : generate_moves pos with
        | nil => exact absurd hg hne
        | cons m ms =>
            refine ⟨m, ?_, ?_⟩
            · simp only [choose_move_iterdeep]
              rw [hb, hg]
            · exact List.mem_cons_self _ _
  · intro he
    have hb := iterdeep_go_none Z pos he max_depth 1
      { tt := tt0, nodes := 0, clock := clock }
    simp only [choose_move_iterdeep]
    rw [hb, he]

/-- Witness for `choose_move_iterdeep_spec`: with a white pawn on a2 and a
black pawn on h7 the search returns a legal move. -/
theorem choose_move_iterdeep_spec_witness :
    generate_moves p_wa2_bh7 ≠ [] ∧
      ∃ mv, choose_move_iterdeep z0 p_wa2_bh7 64 [] 5 = Except.ok mv ∧
        mv ∈ generate_moves p_wa2_bh7 :=
  ⟨by decide, (choose_move_iterdeep_spec z0 p_wa2_bh7 64 [] 5).1 (by decide)⟩

end TwoFlags
